import Mathlib

/-
Verification of the post-persistence pipeline of scripts/generate_blog.py
(function save_blog_post and the front-matter extraction / slug derivation
embedded in it).

Modelling conventions:
- Python strings are Lean `String` / `List Char`.
- The regex character class \s is modelled by `isWs` (the six ASCII
  whitespace characters Python's re module accepts for ASCII text); \w is
  modelled by `isWordChar` (ASCII alphanumerics and underscore).  The
  repository only ever feeds the pipeline ASCII-classified characters
  through these classes, so the ASCII restriction of the Unicode classes
  is the faithful shallow embedding.
- Header patterns (`^date: ...` and `^title: ...$` with re.MULTILINE) are
  modelled at the match positions of re.search: a match can only start at
  the beginning of the content or right after a newline, so the model
  scans the suffixes at line starts (lineTails) left to right and takes
  the first one the pattern matches, which is the leftmost match.  The
  class \s inside the patterns matches newlines, so the whitespace after
  the date:/title: marker may bridge line breaks and the captured value
  may lie on a later line; the dot of (.+?) does not match a newline, and
  the trailing \s*$ succeeds exactly when the rest of the current line is
  whitespace.
- The filesystem is a pure state: an association list of file paths to
  contents plus a list of existing directories.  Wall-clock time is a
  record of the strftime fields the code reads.
-/

namespace Blog

/-- Whitespace test modelling the regex class \s of the Python re module
(space, tab, newline, carriage return, vertical tab, form feed). -/
def isWs (c : Char) : Bool :=
  c == ' ' || c == '\t' || c == '\n' || c == '\r' || c == '\x0b' || c == '\x0c'

/-- Word-character test modelling the regex class \w (alphanumeric or
underscore, ASCII range). -/
def isWordChar (c : Char) : Bool :=
  c.isAlphanum || c == '_'

/-- Quote characters accepted by the title pattern: straight double or
straight single quote. -/
def isQuote (c : Char) : Bool :=
  c == '"' || c == '\''

/-- Characters kept by the substitution re.sub(r'[^\w\s-]', '', slug):
everything that is a word character, whitespace, or a hyphen. -/
def keepChar (c : Char) : Bool :=
  isWordChar c || isWs c || c == '-'

/-- Characters matched by the class [\s_] of re.sub(r'[\s_]+', '-', slug). -/
def isWsU (c : Char) : Bool :=
  isWs c || c == '_'

/-- Characters matched by re.sub(r'-+', '-', slug). -/
def isHyphen (c : Char) : Bool :=
  c == '-'

/-- One regex substitution replacing every maximal nonempty run of
characters satisfying `p` by a single hyphen.  The flag records whether
the previous character belonged to a run (state-machine reading of the
left-to-right scan re.sub performs). -/
def collapseSub (p : Char → Bool) : Bool → List Char → List Char
  | _, [] => []
  | inRun, c :: cs =>
    if p c then
      if inRun then collapseSub p true cs else '-' :: collapseSub p true cs
    else c :: collapseSub p false cs

/-- Python str.strip('-'): drop leading and trailing hyphens. -/
def stripHyphens (l : List Char) : List Char :=
  ((l.dropWhile isHyphen).reverse.dropWhile isHyphen).reverse

/-- Slug derivation translated from save_blog_post (lines 171 to 175):
lower-case, remove special characters, replace whitespace/underscore runs
with hyphens, collapse hyphen runs, strip boundary hyphens. -/
def slugChars (l : List Char) : List Char :=
  stripHyphens
    (collapseSub isHyphen false
      (collapseSub isWsU false
        ((l.map Char.toLower).filter keepChar)))

/-- String-level slug derivation of save_blog_post. -/
def slug (s : String) : String :=
  String.mk (slugChars s.toList)

/-- Character filter of step 2 of the slug derivation as the
specification words it: keep a character exactly when it is alphanumeric,
an underscore, a hyphen, or whitespace. -/
def specKeepChar (c : Char) : Bool :=
  c.isAlphanum || c == '_' || c == '-' || isWs c

/-- Reference implementation, written from the specification, of steps 3
and 4 of the slug derivation: collapse every maximal run of
`p`-characters into a single hyphen.  Implemented by explicit run
skipping rather than by the state machine of `collapseSub`. -/
def specCollapse (p : Char → Bool) : List Char → List Char
  | [] => []
  | c :: cs =>
    if p c then '-' :: specCollapse p (cs.dropWhile p)
    else c :: specCollapse p cs
termination_by l => l.length
decreasing_by
  · exact Nat.lt_succ_of_le ((List.dropWhile_sublist p).length_le)
  · exact Nat.lt_succ_of_le (Nat.le_refl _)

/-- Slug derivation as the five-step reference definition of the
specification. -/
def slug_spec (s : String) : String :=
  String.mk
    (stripHyphens
      (specCollapse isHyphen
        (specCollapse isWsU
          ((s.toList.map Char.toLower).filter specKeepChar))))

theorem keepChar_eq_specKeepChar (c : Char) : keepChar c = specKeepChar c := by
  cases hA : c.isAlphanum <;> cases hU : (c == '_') <;> cases hH : (c == '-') <;>
    cases hW : isWs c <;>
      simp [keepChar, specKeepChar, isWordChar, hA, hU, hH, hW]

theorem collapseSub_eq_specCollapse (p : Char → Bool) (l : List Char) :
    collapseSub p false l = specCollapse p l ∧
      collapseSub p true l = specCollapse p (l.dropWhile p) := by
  induction l with
  | nil => constructor <;> simp [collapseSub, specCollapse]
  | cons c cs ih =>
    constructor
    · by_cases h : p c
      · simp only [collapseSub, h, if_true]
        rw [specCollapse, if_pos h, ih.2]
        simp
      · simp only [collapseSub, h, if_false, Bool.false_eq_true]
        rw [specCollapse, if_neg h, ih.1]
    · by_cases h : p c
      · simp only [collapseSub, List.dropWhile, h, if_true]
        rw [ih.2]
      · simp only [collapseSub, List.dropWhile, h, if_false, Bool.false_eq_true]
        rw [specCollapse, if_neg h, ih.1]

theorem slug_eq_spec_all (s : String) : slug s = slug_spec s := by
  unfold slug slug_spec slugChars
  rw [List.filter_congr (fun c _ => keepChar_eq_specKeepChar c)]
  rw [(collapseSub_eq_specCollapse isWsU _).1, (collapseSub_eq_specCollapse isHyphen _).1]

example : slug "Kubernetes Networking: A Deep Dive!" = "kubernetes-networking-a-deep-dive" := by decide
example : slug "!!!" = "" := by decide
example : slug "  Hello___World -- again  " = "hello-world-again" := by decide

theorem char_toNat_ofNat {n : Nat} (h : n.isValidChar) : (Char.ofNat n).toNat = n := by
  simp [Char.ofNat, h, Char.ofNatAux, Char.toNat, UInt32.toNat, BitVec.toNat_ofNatLt]

theorem toLower_eq_self {c : Char} (h : ¬(c.toNat ≥ 65 ∧ c.toNat ≤ 90)) : c.toLower = c := by
  show (if c.toNat ≥ 65 ∧ c.toNat ≤ 90 then Char.ofNat (c.toNat + 32) else c) = c
  exact if_neg h

theorem toLower_not_upper (c : Char) : ¬(c.toLower.toNat ≥ 65 ∧ c.toLower.toNat ≤ 90) := by
  have hrw : c.toLower =
      (if c.toNat ≥ 65 ∧ c.toNat ≤ 90 then Char.ofNat (c.toNat + 32) else c) := rfl
  rw [hrw]
  by_cases h : c.toNat ≥ 65 ∧ c.toNat ≤ 90
  · rw [if_pos h]
    have hv : (c.toNat + 32).isValidChar := Or.inl (by omega)
    rw [char_toNat_ofNat hv]
    omega
  · rw [if_neg h]; exact h

theorem toLower_idem (c : Char) : c.toLower.toLower = c.toLower :=
  toLower_eq_self (toLower_not_upper c)

/-- Characters that may appear in a slug: an alphanumeric character fixed
by lower-casing, or a hyphen. -/
def isSlugChar (c : Char) : Bool :=
  (c.isAlphanum && (c.toLower == c)) || c == '-'

/-- No two adjacent characters of the list are both hyphens. -/
def HyphenSep (l : List Char) : Prop :=
  l.Chain' (fun a b => ¬(a = '-' ∧ b = '-'))

/-- Shape of every string the slug derivation can produce: slug
characters only, no hyphen run, no boundary hyphen. -/
def SlugShape (l : List Char) : Prop :=
  (∀ c ∈ l, isSlugChar c = true) ∧ HyphenSep l ∧
    l.head? ≠ some '-' ∧ l.getLast? ≠ some '-'

theorem mem_collapseSub {p : Char → Bool} {c : Char} :
    ∀ {b : Bool} {l : List Char}, c ∈ collapseSub p b l →
      c = '-' ∨ (c ∈ l ∧ p c = false) := by
  intro b l
  induction l generalizing b with
  | nil => intro h; simp [collapseSub] at h
  | cons x xs ih =>
    intro h
    by_cases hp : p x
    · simp only [collapseSub, hp, if_true] at h
      cases b with
      | true =>
        rcases ih h with h1 | h2
        · exact Or.inl h1
        · exact Or.inr ⟨List.mem_cons_of_mem _ h2.1, h2.2⟩
      | false =>
        rcases List.mem_cons.mp h with h1 | h1
        · exact Or.inl h1
        · rcases ih h1 with h2 | h3
          · exact Or.inl h2
          · exact Or.inr ⟨List.mem_cons_of_mem _ h3.1, h3.2⟩
    · simp only [collapseSub, hp, if_false, Bool.false_eq_true] at h
      rcases List.mem_cons.mp h with h1 | h1
      · subst h1
        exact Or.inr ⟨List.mem_cons_self _ _, by simpa using hp⟩
      · rcases ih h1 with h2 | h3
        · exact Or.inl h2
        · exact Or.inr ⟨List.mem_cons_of_mem _ h3.1, h3.2⟩

theorem collapseSub_hyphen_chain (l : List Char) :
    HyphenSep (collapseSub isHyphen false l) ∧
      HyphenSep (collapseSub isHyphen true l) ∧
      (collapseSub isHyphen true l).head? ≠ some '-' := by
  induction l with
  | nil => refine ⟨?_, ?_, ?_⟩ <;> simp [collapseSub, HyphenSep]
  | cons x xs ih =>
    by_cases hx : isHyphen x
    · have hcol : collapseSub isHyphen false (x :: xs) =
          '-' :: collapseSub isHyphen true xs := by
        simp [collapseSub, hx]
      have hcol2 : collapseSub isHyphen true (x :: xs) =
          collapseSub isHyphen true xs := by
        simp [collapseSub, hx]
      refine ⟨?_, by rw [hcol2]; exact ih.2.1, by rw [hcol2]; exact ih.2.2⟩
      rw [hcol]
      refine (List.chain'_cons').mpr ⟨?_, ih.2.1⟩
      intro y hy
      intro hcon
      have hsome : (collapseSub isHyphen true xs).head? = some y := hy
      exact ih.2.2 (hcon.2 ▸ hsome)
    · have hcol : collapseSub isHyphen false (x :: xs) =
          x :: collapseSub isHyphen false xs := by
        simp [collapseSub, hx]
      have hcol2 : collapseSub isHyphen true (x :: xs) =
          x :: collapseSub isHyphen false xs := by
        simp [collapseSub, hx]
      have hxne : x ≠ '-' := by
        intro hxe; exact hx (by simp [isHyphen, hxe])
      have hchain : HyphenSep (x :: collapseSub isHyphen false xs) := by
        refine (List.chain'_cons').mpr ⟨?_, ih.1⟩
        intro y _ hcon
        exact hxne hcon.1
      refine ⟨by rw [hcol]; exact hchain, by rw [hcol2]; exact hchain, ?_⟩
      rw [hcol2]
      simp only [List.head?_cons, ne_eq, Option.some.injEq]
      exact hxne

theorem head?_dropWhile_ne {p : Char → Bool} {l : List Char} {c : Char}
    (h : (l.dropWhile p).head? = some c) : p c = false := by
  have hm := List.head?_dropWhile_not p l
  rw [h] at hm
  exact hm

theorem HyphenSep.reverse_of {l : List Char} (h : HyphenSep l) : HyphenSep l.reverse := by
  rw [HyphenSep, List.chain'_reverse]
  exact List.Chain'.imp (fun a b hab hcon => hab ⟨hcon.2, hcon.1⟩) h

theorem HyphenSep.dropWhile_of {p : Char → Bool} {l : List Char} (h : HyphenSep l) :
    HyphenSep (l.dropWhile p) :=
  List.Chain'.suffix h (List.dropWhile_suffix p)

theorem HyphenSep.stripHyphens_of {l : List Char} (h : HyphenSep l) :
    HyphenSep (stripHyphens l) :=
  HyphenSep.reverse_of (HyphenSep.dropWhile_of (HyphenSep.reverse_of (HyphenSep.dropWhile_of h)))

theorem mem_stripHyphens {l : List Char} {c : Char} (h : c ∈ stripHyphens l) : c ∈ l := by
  unfold stripHyphens at h
  rw [List.mem_reverse] at h
  have h1 := (List.dropWhile_sublist isHyphen).subset h
  rw [List.mem_reverse] at h1
  exact (List.dropWhile_sublist isHyphen).subset h1

theorem head?_stripHyphens_ne (l : List Char) : (stripHyphens l).head? ≠ some '-' := by
  unfold stripHyphens
  intro h
  rw [List.head?_reverse] at h
  rcases List.dropWhile_suffix (l := (l.dropWhile isHyphen).reverse) isHyphen with ⟨t, ht⟩
  have hvne : (l.dropWhile isHyphen).reverse.dropWhile isHyphen ≠ [] := by
    intro hnil
    rw [hnil] at h
    simp at h
  have hgl : ((l.dropWhile isHyphen).reverse.dropWhile isHyphen).getLast?
      = (l.dropWhile isHyphen).reverse.getLast? := by
    conv_rhs => rw [← ht]
    rw [List.getLast?_append]
    cases hgv : ((l.dropWhile isHyphen).reverse.dropWhile isHyphen).getLast? with
    | none => exact absurd (List.getLast?_eq_none_iff.mp hgv) hvne
    | some a => simp
  rw [hgl, List.getLast?_reverse] at h
  have hne := head?_dropWhile_ne h
  simp [isHyphen] at hne

theorem getLast?_stripHyphens_ne (l : List Char) : (stripHyphens l).getLast? ≠ some '-' := by
  unfold stripHyphens
  intro h
  rw [List.getLast?_reverse] at h
  have := head?_dropWhile_ne h
  simp [isHyphen] at this

theorem isWsU_of_isSlugChar {c : Char} (h : isSlugChar c = true) : isWsU c = false := by
  rcases Bool.or_eq_true_iff.mp h with h1 | h1
  · have ha : c.isAlphanum = true := (Bool.and_eq_true_iff.mp h1).1
    cases hw : isWsU c
    · rfl
    · exfalso
      simp only [isWsU, isWs, Bool.or_eq_true, beq_iff_eq] at hw
      rcases hw with (((((h2 | h2) | h2) | h2) | h2) | h2) | h2 <;> subst h2 <;>
        exact absurd ha (by decide)
  · rw [eq_of_beq h1]
    rfl

theorem isSlugChar_of_pipeline {l : List Char} {c : Char}
    (hc : c ∈ collapseSub isHyphen false
      (collapseSub isWsU false ((l.map Char.toLower).filter keepChar))) :
    isSlugChar c = true := by
  rcases mem_collapseSub hc with h1 | ⟨h2, hnh⟩
  · subst h1; decide
  · rcases mem_collapseSub h2 with h3 | ⟨h4, hwu⟩
    · exfalso; subst h3; exact absurd hnh (by decide)
    · have hkeep := (List.mem_filter.mp h4).2
      have hmem := (List.mem_filter.mp h4).1
      rcases List.mem_map.mp hmem with ⟨c0, _, hc0⟩
      have hlow : c.toLower = c := by rw [← hc0]; exact toLower_idem c0
      have hwsF : isWs c = false := by
        cases hb : isWs c
        · rfl
        · exfalso; rw [isWsU, hb] at hwu; simp at hwu
      have hunF : (c == '_') = false := by
        cases hb : (c == '_')
        · rfl
        · exfalso; rw [isWsU, hb] at hwu; simp at hwu
      have hhyF : (c == '-') = false := hnh
      rw [keepChar, isWordChar, hwsF, hhyF, hunF] at hkeep
      simp only [Bool.or_false] at hkeep
      rw [isSlugChar, hkeep, hlow]
      simp

theorem slugShape_slugChars (l : List Char) : SlugShape (slugChars l) := by
  refine ⟨?_, ?_, ?_, ?_⟩
  · intro c hc
    exact isSlugChar_of_pipeline (mem_stripHyphens hc)
  · exact HyphenSep.stripHyphens_of (collapseSub_hyphen_chain _).1
  · exact head?_stripHyphens_ne _
  · exact getLast?_stripHyphens_ne _

theorem collapseSub_id_of_none {p : Char → Bool} {l : List Char}
    (h : ∀ c ∈ l, p c = false) : collapseSub p false l = l := by
  induction l with
  | nil => rfl
  | cons x xs ih =>
    have hx := h x (List.mem_cons_self _ _)
    simp only [collapseSub, hx, Bool.false_eq_true, if_false]
    rw [ih (fun c hc => h c (List.mem_cons_of_mem _ hc))]

theorem collapseSub_hyphen_id (l : List Char) :
    (HyphenSep l → collapseSub isHyphen false l = l) ∧
      (HyphenSep l → l.head? ≠ some '-' → collapseSub isHyphen true l = l) := by
  induction l with
  | nil => exact ⟨fun _ => rfl, fun _ _ => rfl⟩
  | cons x xs ih =>
    have hhd : ∀ (hch : HyphenSep (x :: xs)), x = '-' → xs.head? ≠ some '-' := by
      intro hch hxe hhd
      rcases xs with _ | ⟨y, ys⟩
      · simp at hhd
      · have hy : y = '-' := by simpa using hhd
        have := (List.chain'_cons'.mp hch).1 y (by simp)
        exact this ⟨hxe, hy⟩
    constructor
    · intro hch
      by_cases hx : isHyphen x
      · have hxe : x = '-' := eq_of_beq hx
        have hstep : collapseSub isHyphen false (x :: xs) =
            '-' :: collapseSub isHyphen true xs := by
          simp [collapseSub, hx]
        rw [hstep, ih.2 (List.chain'_cons'.mp hch).2 (hhd hch hxe), hxe]
      · simp only [collapseSub, hx, Bool.false_eq_true, if_false]
        rw [ih.1 (List.chain'_cons'.mp hch).2]
    · intro hch hh
      have hxe : x ≠ '-' := by
        intro he; exact hh (by simp [he])
      have hx : isHyphen x = false := by
        cases hb : isHyphen x
        · rfl
        · exact absurd (eq_of_beq hb) hxe
      simp only [collapseSub, hx, Bool.false_eq_true, if_false]
      rw [ih.1 (List.chain'_cons'.mp hch).2]

theorem stripHyphens_id {l : List Char} (h1 : l.head? ≠ some '-')
    (h2 : l.getLast? ≠ some '-') : stripHyphens l = l := by
  have d1 : l.dropWhile isHyphen = l := by
    cases l with
    | nil => rfl
    | cons x xs =>
      have hxe : x ≠ '-' := by
        intro he; exact h1 (by simp [he])
      apply List.dropWhile_cons_of_neg
      intro hb
      exact hxe (eq_of_beq hb)
  have d2 : l.reverse.dropWhile isHyphen = l.reverse := by
    cases hr : l.reverse with
    | nil => rfl
    | cons x xs =>
      have hx : l.getLast? = some x := by
        rw [← List.head?_reverse, hr]; rfl
      have hxe : x ≠ '-' := by
        intro he; rw [he] at hx; exact h2 hx
      rw [← hr]
      rw [hr]
      apply List.dropWhile_cons_of_neg
      intro hb
      exact hxe (eq_of_beq hb)
  rw [stripHyphens, d1, d2, List.reverse_reverse]

theorem slug_eq_self_of_shape {s : String} (h : SlugShape s.toList) : slug s = s := by
  obtain ⟨hall, hch, hhd, hlast⟩ := h
  have hmap : s.toList.map Char.toLower = s.toList := by
    have hstep : ∀ a ∈ s.toList, a.toLower = a := by
      intro a ha
      rcases Bool.or_eq_true_iff.mp (hall a ha) with h1 | h1
      · exact eq_of_beq (Bool.and_eq_true_iff.mp h1).2
      · rw [eq_of_beq h1]; decide
    calc s.toList.map Char.toLower = s.toList.map (fun a => a) :=
          List.map_congr_left hstep
      _ = s.toList := List.map_id' _
  have hfil : s.toList.filter keepChar = s.toList := by
    refine List.filter_eq_self.mpr ?_
    intro a ha
    rcases Bool.or_eq_true_iff.mp (hall a ha) with h1 | h1
    · rw [keepChar, isWordChar, (Bool.and_eq_true_iff.mp h1).1]
      simp
    · rw [keepChar, eq_of_beq h1]
      decide
  have hws : collapseSub isWsU false s.toList = s.toList :=
    collapseSub_id_of_none (fun c hc => isWsU_of_isSlugChar (hall c hc))
  have hhy : collapseSub isHyphen false s.toList = s.toList :=
    (collapseSub_hyphen_id s.toList).1 hch
  have hst : stripHyphens s.toList = s.toList := stripHyphens_id hhd hlast
  show String.mk (slugChars s.toList) = s
  rw [slugChars, hmap, hfil, hws, hhy, hst]
  rfl

theorem slug_idem (s t : String) (h : s = slug t) : slug s = s := by
  subst h
  apply slug_eq_self_of_shape
  show SlugShape (slugChars t.toList)
  exact slugShape_slugChars t.toList

/-- Segments of a character list between newline characters: the
per-line reading of the header patterns.  This is the reading the
specification's "first line of the form ..." sentences use; the code's
re.search is not line-local (see lineTails below), which is what the
counterexample for C5 exhibits. -/
def splitLines : List Char → List (List Char)
  | [] => [[]]
  | c :: cs =>
    if c = '\n' then [] :: splitLines cs
    else
      match splitLines cs with
      | [] => [[c]]
      | l :: ls => (c :: l) :: ls

/-- Lines of a content string. -/
def linesOf (s : String) : List (List Char) :=
  splitLines s.toList

/-- Suffixes of a character list at the positions where the MULTILINE
anchor of re.search can match: the start of the string and the position
after every newline, in increasing position order.  re.search returns
the leftmost match, i.e. the first of these suffixes on which the
pattern succeeds. -/
def lineTailsAux : List Char → List (List Char)
  | [] => []
  | c :: cs => if c = '\n' then cs :: lineTailsAux cs else lineTailsAux cs

/-- All line-start suffixes of a character list, leftmost first. -/
def lineTails (l : List Char) : List (List Char) :=
  l :: lineTailsAux l

/-- Match of the pattern date:\s*(\d{4}-\d{2}-\d{2}) at a line start,
given the whole remaining suffix of the content: after the literal
"date:" the greedy \s* skips any whitespace, newlines included, then
four digits, a hyphen, two digits, a hyphen and two digits must follow;
everything after the group is ignored. -/
def dateAt (s : List Char) : Option (List Char) :=
  if s.take 5 = "date:".toList then
    match (s.drop 5).dropWhile isWs with
    | y1 :: y2 :: y3 :: y4 :: s1 :: m1 :: m2 :: s2 :: d1 :: d2 :: _ =>
      if y1.isDigit && y2.isDigit && y3.isDigit && y4.isDigit && s1 == '-' &&
          m1.isDigit && m2.isDigit && s2 == '-' && d1.isDigit && d2.isDigit then
        some [y1, y2, y3, y4, s1, m1, m2, s2, d1, d2]
      else none
    | _ => none
  else none

/-- Date extraction of save_blog_post line 163: the captured group of
the leftmost match of the date pattern, scanning the line-start
positions left to right. -/
def extract_date (content : String) : Option String :=
  ((lineTails content.toList).findSome? dateAt).map String.mk

/-- Whether every character of the suffix up to the end of its current
line (the next newline or the end of the content) is whitespace.  The
trailing \s*$ of the title pattern succeeds from a position exactly
when this holds of the remaining suffix: $ matches before a newline or
at the end, and a non-whitespace character on the same line blocks
every stop position of \s*. -/
def lineAllWs (u : List Char) : Bool :=
  (u.takeWhile (fun c => !(c == '\n'))).all isWs

/-- Test whether a suffix can be matched by the trailing part
["\x27]?\s*$ of the title pattern: an optional quote character followed
by whitespace up to the end of the current line. -/
def tailOk : List Char → Bool
  | [] => true
  | c :: r => lineAllWs (c :: r) || (isQuote c && lineAllWs r)

/-- Lazy group of (.+?) in the title pattern: the shortest nonempty
prefix of the suffix, containing no newline (the dot does not match a
newline), whose remaining suffix still matches the rest of the
pattern. -/
def contentSearch : List Char → Option (List Char)
  | [] => none
  | c :: cs =>
    if c = '\n' then none
    else if tailOk cs then some [c]
    else (contentSearch cs).map (fun g => c :: g)

/-- Optional opening quote of the title pattern: the engine first tries
to consume a quote character and falls back to not consuming it. -/
def quoteStep : List Char → Option (List Char)
  | [] => none
  | c :: cs =>
    if isQuote c then
      match contentSearch cs with
      | some g => some g
      | none => contentSearch (c :: cs)
    else contentSearch (c :: cs)

/-- Greedy \s* after the literal "title:": try consuming k whitespace
characters, longest first, backtracking to shorter prefixes.  The
whitespace run may contain newlines. -/
def wsBacktrack (r : List Char) : Nat → Option (List Char)
  | 0 => quoteStep r
  | k + 1 =>
    match quoteStep (r.drop (k + 1)) with
    | some g => some g
    | none => wsBacktrack r k

/-- Match of the pattern title:\s*["\x27]?(.+?)["\x27]?\s*$ at a line
start, given the whole remaining suffix of the content: the greedy \s*
may span line breaks, so the captured value can stand on a later line
than the title: marker. -/
def titleAt (s : List Char) : Option (List Char) :=
  if s.take 6 = "title:".toList then
    wsBacktrack (s.drop 6) ((s.drop 6).takeWhile isWs).length
  else none

/-- Title extraction of save_blog_post line 164: the captured group of
the leftmost match of the title pattern, scanning the line-start
positions left to right. -/
def extract_title (content : String) : Option String :=
  ((lineTails content.toList).findSome? titleAt).map String.mk

example : extract_title "title: \"Intro to CI/CD\"" = some "Intro to CI/CD" := by decide
example : extract_title "title: 'Intro to CI/CD'" = some "Intro to CI/CD" := by decide
example : extract_title "title: \"Hello" = some "Hello" := by decide
example : extract_title "title: Hello\"" = some "Hello" := by decide
example : extract_title "title: 'Hello\"" = some "Hello" := by decide
example : extract_title "title:Hello" = some "Hello" := by decide
example : extract_title "title: !!!" = some "!!!" := by decide
example : extract_title "title: " = some " " := by decide
example : extract_title "title:" = none := by decide
example : extract_title "title: \"" = some "\"" := by decide
example : extract_title "title: \"'" = some "'" := by decide
example : extract_title "title: \"a\"" = some "a" := by decide
example : extract_title "title: \"a" = some "a" := by decide
example : extract_title "title: x  " = some "x" := by decide
example : extract_title "title:   \"  spaced  \"  " = some "  spaced  " := by decide
example : extract_title "title: \"\"" = some "\"" := by decide
example : extract_title "xtitle: nope\ntitle: real" = some "real" := by decide
example : extract_title "body\ntitle: one\ntitle: two" = some "one" := by decide
example : extract_title "title:\nHello" = some "Hello" := by decide
example : extract_title "title:\nB\ntitle: Real" = some "B" := by decide
example : extract_title "title:\n\ntitle: a" = some "title: a" := by decide
example : extract_title "title:  \na" = some "a" := by decide
example : extract_title "title:\n x" = some "x" := by decide
example : extract_title "title: x\ny" = some "x" := by decide
example : extract_title "title: a\nb" = some "a" := by decide
example : extract_title "title:\n!!!" = some "!!!" := by decide
example : extract_title "title:\n  \n" = some " " := by decide
example : extract_title "title:\n\n\n" = none := by decide
example : extract_title "title:\"\na" = some "\"" := by decide
example : extract_title "title: \"a\nb\"" = some "a" := by decide
example : extract_title "x\ntitle:\ny\n" = some "y" := by decide
example : extract_date "date: 2024-03-05 10:00:00 +0000" = some "2024-03-05" := by decide
example : extract_date "date:2023-13-45" = some "2023-13-45" := by decide
example : extract_date "date: abc\ndate: 2020-01-02" = some "2020-01-02" := by decide
example : extract_date "date: 123-11-22" = none := by decide
example : extract_date "date:  \t2020-01-02x" = some "2020-01-02" := by decide
example : extract_date "nodate" = none := by decide
example : extract_date "date:\n2024-03-05" = some "2024-03-05" := by decide
example : extract_date "date: abc\ndate:\n2023-01-01\ndate: 2022-02-02" = some "2023-01-01" := by decide
example : extract_date "date:  \n\t 2024-01-02x" = some "2024-01-02" := by decide
example : extract_date "date:\nabc\ndate: 2020-02-02" = some "2020-02-02" := by decide
example : extract_date "date: \n 12-11-10\ndate: 2000-01-01" = some "2000-01-01" := by decide

/-- Little-endian decimal digits of a natural number, computed with
explicit fuel so that the kernel can evaluate it. -/
def toDigitsRev : Nat → Nat → List Nat
  | 0, _ => []
  | fuel + 1, n => if n = 0 then [] else (n % 10) :: toDigitsRev fuel (n / 10)

/-- Decimal digits of a natural number, least significant first. -/
def natDigits (n : Nat) : List Nat := toDigitsRev n n

theorem toDigitsRev_eq_digits : ∀ fuel n, n ≤ fuel → toDigitsRev fuel n = Nat.digits 10 n := by
  intro fuel
  induction fuel with
  | zero => intro n hn; interval_cases n; simp [toDigitsRev]
  | succ f ih =>
    intro n hn
    by_cases h0 : n = 0
    · subst h0; simp [toDigitsRev]
    · have hpos : 0 < n := Nat.pos_of_ne_zero h0
      rw [toDigitsRev, if_neg h0, Nat.digits_def' (by norm_num : (1:ℕ) < 10) hpos]
      congr 1
      exact ih (n / 10) (by omega)

theorem natDigits_eq (n : Nat) : natDigits n = Nat.digits 10 n :=
  toDigitsRev_eq_digits n n (Nat.le_refl n)

/-- Decimal digit character. -/
def digitCh (d : Nat) : Char := Char.ofNat (48 + d)

/-- Decimal representation of a natural number, modelling Python str(n)
for the collision counter. -/
def natRepr (n : Nat) : String :=
  if n = 0 then "0" else String.mk ((natDigits n).reverse.map digitCh)

theorem digitCh_inj : ∀ a < 10, ∀ b < 10, digitCh a = digitCh b → a = b := by decide

theorem map_digitCh_inj :
    ∀ l1 l2 : List Nat, (∀ d ∈ l1, d < 10) → (∀ d ∈ l2, d < 10) →
      l1.map digitCh = l2.map digitCh → l1 = l2 := by
  intro l1
  induction l1 with
  | nil =>
    intro l2 _ _ h
    cases l2 with
    | nil => rfl
    | cons b bs => simp at h
  | cons a as ih =>
    intro l2 h1 h2 h
    cases l2 with
    | nil => simp at h
    | cons b bs =>
      simp only [List.map_cons, List.cons.injEq] at h
      have hab := digitCh_inj a (h1 a (List.mem_cons_self _ _)) b
        (h2 b (List.mem_cons_self _ _)) h.1
      rw [hab, ih bs (fun d hd => h1 d (List.mem_cons_of_mem _ hd))
        (fun d hd => h2 d (List.mem_cons_of_mem _ hd)) h.2]

theorem digits_bounded (n : Nat) : ∀ d ∈ (natDigits n).reverse, d < 10 := by
  intro d hd
  rw [natDigits_eq] at hd
  exact Nat.digits_lt_base (by norm_num) (List.mem_reverse.mp hd)

theorem natRepr_pos_ne_zero_repr {n : Nat} (hn : 0 < n) : natRepr n ≠ "0" := by
  intro h
  rw [natRepr, if_neg (Nat.pos_iff_ne_zero.mp hn)] at h
  have hdata : (natDigits n).reverse.map digitCh = ['0'] := congrArg String.data h
  have h0 : ('0' : Char) = digitCh 0 := by decide
  rw [h0] at hdata
  have hshape : (natDigits n).reverse.map digitCh = [0].map digitCh := by
    rw [hdata]; rfl
  have := map_digitCh_inj _ _ (digits_bounded n) (by intro d hd; simp at hd; omega) hshape
  have hdig : natDigits n = [0] := by
    have := congrArg List.reverse this
    simpa using this
  rw [natDigits_eq] at hdig
  have := congrArg (Nat.ofDigits 10) hdig
  rw [Nat.ofDigits_digits] at this
  simp [Nat.ofDigits] at this
  omega

theorem natRepr_inj {m n : Nat} (h : natRepr m = natRepr n) : m = n := by
  by_cases hm : m = 0 <;> by_cases hn : n = 0
  · rw [hm, hn]
  · exfalso
    rw [hm] at h
    exact natRepr_pos_ne_zero_repr (Nat.pos_of_ne_zero hn) h.symm
  · exfalso
    rw [hn] at h
    exact natRepr_pos_ne_zero_repr (Nat.pos_of_ne_zero hm) h
  · rw [natRepr, if_neg hm, natRepr, if_neg hn] at h
    have hdata := congrArg String.data h
    have hlists := map_digitCh_inj _ _ (digits_bounded m) (digits_bounded n) hdata
    have hrev := congrArg List.reverse hlists
    simp only [List.reverse_reverse] at hrev
    rw [natDigits_eq, natDigits_eq] at hrev
    have := congrArg (Nat.ofDigits 10) hrev
    rwa [Nat.ofDigits_digits, Nat.ofDigits_digits] at this

/-- Filesystem state: files as an association list from path to content
(a write conses in front, so lookup returns the newest version), plus
the collection of existing directories. -/
structure FS where
  files : List (String × String)
  dirs : List String

/-- File existence test, modelling Path.exists() on the candidate
archive paths (the candidates are always regular files). -/
def FS.existsFile (fs : FS) (p : String) : Bool :=
  (fs.files.lookup p).isSome

/-- Read a file back. -/
def FS.read (fs : FS) (p : String) : Option String :=
  fs.files.lookup p

/-- Write the full content string to a path: open(path, "w",
encoding="utf-8") followed by f.write(content), replacing any previous
file at that path. -/
def FS.write (fs : FS) (p c : String) : FS :=
  { fs with files := (p, c) :: fs.files }

/-- Path.mkdir with the exist_ok flag: FileExistsError when the
directory exists and exist_ok is not set. -/
def FS.mkdir1 (fs : FS) (d : String) (existOk : Bool) : Except String FS :=
  if fs.dirs.contains d then
    if existOk then .ok fs else .error "FileExistsError"
  else .ok { fs with dirs := d :: fs.dirs }

/-- Path.mkdir(parents=True, exist_ok=True): create every directory of
the prefix chain in order, tolerating the ones that already exist. -/
def FS.mkdirParents (fs : FS) (ds : List String) : Except String FS :=
  ds.foldlM (fun f d => FS.mkdir1 f d true) fs

/-- shutil.copy2(src, dst): read the source and write its content to the
destination, overwriting any file already there. -/
def FS.copy (fs : FS) (src dst : String) : Except String FS :=
  match fs.files.lookup src with
  | some c => .ok (fs.write dst c)
  | none => .error "FileNotFoundError"

/-- Fields save_blog_post reads from datetime.now() through strftime:
the zero-padded year, month and day strings and the HHMMSS string. -/
structure Stamp where
  year : String
  month : String
  day : String
  timeStr : String

/-- Directory posts/YYYY/MM/DD of save_blog_post line 139. -/
def postsDir (st : Stamp) : String :=
  "posts/" ++ st.year ++ "/" ++ st.month ++ "/" ++ st.day

/-- Chain of directories mkdir(parents=True, exist_ok=True) creates for
the posts directory. -/
def postsDirChain (st : Stamp) : List String :=
  ["posts", "posts/" ++ st.year, "posts/" ++ st.year ++ "/" ++ st.month, postsDir st]

/-- Candidate archive path number k of the collision loop:
auto-HHMMSS.md for k = 0, auto-HHMMSS-k.md for k ≥ 1. -/
def candidate (st : Stamp) : Nat → String
  | 0 => postsDir st ++ "/auto-" ++ st.timeStr ++ ".md"
  | k + 1 => postsDir st ++ "/auto-" ++ st.timeStr ++ "-" ++ natRepr (k + 1) ++ ".md"

/-- Collision loop of save_blog_post lines 148 to 153: starting at
candidate k, walk the candidate sequence until a path does not exist.
Fuel bounds the walk; any fuel above the number of existing files is
enough (findFree_spec below). -/
def findFree (ex : String → Bool) (st : Stamp) : Nat → Nat → Option String
  | 0, _ => none
  | fuel + 1, k =>
    if ex (candidate st k) then findFree ex st fuel (k + 1)
    else some (candidate st k)

/-- Jekyll publication path _posts/<date>-<slug>.md of lines 177 to 182. -/
def jekyllPath (d t : String) : String :=
  "_posts/" ++ d ++ "-" ++ slug t ++ ".md"

/-- Try-block of save_blog_post lines 160 to 184: extract the date and
title; when both are present, derive the slug, create _posts and copy
the archive file to the Jekyll path.  copyOk tells whether the copy
system call itself succeeds; an error value carries the filesystem as
mutated so far and is caught by the caller. -/
def publishStep (fs : FS) (copyOk : Bool) (content archivePath : String) :
    Except (FS × String) (FS × Option String) :=
  match extract_date content, extract_title content with
  | some d, some t =>
    match fs.mkdir1 "_posts" true with
    | .error e => .error (fs, e)
    | .ok fs1 =>
      if copyOk then
        match fs1.copy archivePath (jekyllPath d t) with
        | .error e => .error (fs1, e)
        | .ok fs2 => .ok (fs2, some (jekyllPath d t))
      else .error (fs1, "copy failed")
  | _, _ => .ok (fs, none)

/-- save_blog_post (lines 120 to 188): create the dated directory chain,
resolve a collision-free archive filename, write the content there, then
best-effort publish to _posts with every publication failure caught.
The result carries the final filesystem, the archive path (the return
value of the function) and the Jekyll path when publication happened.
The none result only stands for collision-loop fuel exhaustion, which
save_run below proves impossible. -/
def save_blog_post (st : Stamp) (copyOk : Bool) (fs : FS) (content : String) :
    Option (FS × String × Option String) :=
  match FS.mkdirParents fs (postsDirChain st) with
  | .error _ => none
  | .ok fs1 =>
    match findFree fs1.existsFile st (fs1.files.length + 1) 0 with
    | none => none
    | some p =>
      let fs2 := fs1.write p content
      match publishStep fs2 copyOk content p with
      | .ok (fs3, pub) => some (fs3, p, pub)
      | .error (fsE, _) => some (fsE, p, none)

theorem candidate_inj (st : Stamp) : ∀ {i j : Nat}, candidate st i = candidate st j → i = j := by
  have hzs : ∀ j : Nat, candidate st 0 = candidate st (j + 1) → False := by
    intro j h
    have hd := congrArg String.data h
    simp only [candidate, String.data_append, List.append_assoc] at hd
    have h1 := List.append_cancel_left (List.append_cancel_left (List.append_cancel_left hd))
    simp at h1
  intro i j h
  cases i with
  | zero =>
    cases j with
    | zero => rfl
    | succ j => exact absurd h (fun hh => hzs j hh)
  | succ i =>
    cases j with
    | zero => exact absurd h.symm (fun hh => hzs i hh)
    | succ j =>
      have hd := congrArg String.data h
      simp only [candidate, String.data_append, List.append_assoc] at hd
      have h1 := List.append_cancel_left (List.append_cancel_left
        (List.append_cancel_left (List.append_cancel_left hd)))
      have h2 := List.append_cancel_right h1
      have h3 : natRepr (i + 1) = natRepr (j + 1) := congrArg String.mk h2
      have := natRepr_inj h3
      omega

theorem existsFile_congr {fs1 fs2 : FS} (h : fs1.files = fs2.files) (p : String) :
    fs1.existsFile p = fs2.existsFile p := by
  rw [FS.existsFile, FS.existsFile, h]

theorem mkdir1_true_ok (fs : FS) (d : String) :
    ∃ fsm, FS.mkdir1 fs d true = .ok fsm ∧ fsm.files = fs.files ∧
      (∀ x, fs.dirs.contains x = true → fsm.dirs.contains x = true) ∧
      fsm.dirs.contains d = true := by
  by_cases hc : fs.dirs.contains d
  · exact ⟨fs, by rw [FS.mkdir1, if_pos hc]; rfl, rfl, fun _ h => h, hc⟩
  · refine ⟨{ fs with dirs := d :: fs.dirs }, by rw [FS.mkdir1, if_neg hc], rfl, ?_, ?_⟩
    · intro x hx
      simp only [List.contains_cons]
      rw [hx]
      simp
    · simp

theorem mkdirParents_spec (ds : List String) :
    ∀ fs : FS, ∃ fs' : FS, FS.mkdirParents fs ds = .ok fs' ∧ fs'.files = fs.files ∧
      (∀ d, fs.dirs.contains d = true → fs'.dirs.contains d = true) ∧
      (∀ d ∈ ds, fs'.dirs.contains d = true) := by
  induction ds with
  | nil =>
    intro fs
    exact ⟨fs, rfl, rfl, fun _ h => h, by simp⟩
  | cons d ds ih =>
    intro fs
    obtain ⟨fsm, hok, hfiles, hmono, hd⟩ := mkdir1_true_ok fs d
    obtain ⟨fs', hok', hfiles', hmono', hall'⟩ := ih fsm
    refine ⟨fs', ?_, by rw [hfiles', hfiles], fun x hx => hmono' x (hmono x hx), ?_⟩
    · show (d :: ds).foldlM (fun f d => FS.mkdir1 f d true) fs = .ok fs'
      rw [List.foldlM_cons, hok]
      exact hok'
    · intro x hx
      rcases List.mem_cons.mp hx with he | hm
      · subst he
        exact hmono' x hd
      · exact hall' x hm

theorem mkdirParents_id {fs : FS} {ds : List String}
    (h : ∀ d ∈ ds, fs.dirs.contains d = true) : FS.mkdirParents fs ds = .ok fs := by
  induction ds with
  | nil => rfl
  | cons d ds ih =>
    show (d :: ds).foldlM (fun f d => FS.mkdir1 f d true) fs = .ok fs
    rw [List.foldlM_cons]
    have hc : FS.mkdir1 fs d true = .ok fs := by
      rw [FS.mkdir1, if_pos (h d (List.mem_cons_self _ _))]
      rfl
    rw [hc]
    exact ih (fun x hx => h x (List.mem_cons_of_mem _ hx))

theorem findFree_spec (ex : String → Bool) (st : Stamp) :
    ∀ (fuel k0 : Nat), (∃ k, k0 ≤ k ∧ k < k0 + fuel ∧ ex (candidate st k) = false) →
      ∃ k, k0 ≤ k ∧ ex (candidate st k) = false ∧
        (∀ j, k0 ≤ j → j < k → ex (candidate st j) = true) ∧
        findFree ex st fuel k0 = some (candidate st k) := by
  intro fuel
  induction fuel with
  | zero =>
    rintro k0 ⟨k, h1, h2, _⟩
    omega
  | succ f ih =>
    rintro k0 ⟨k, hk1, hk2, hk3⟩
    by_cases hx : ex (candidate st k0) = true
    · have hne : k ≠ k0 := by
        intro he
        rw [he, hx] at hk3
        exact Bool.noConfusion hk3
      obtain ⟨k', h1', h2', h3', h4'⟩ := ih (k0 + 1) ⟨k, by omega, by omega, hk3⟩
      refine ⟨k', by omega, h2', ?_, ?_⟩
      · intro j hj1 hj2
        rcases Nat.eq_or_lt_of_le hj1 with he | hlt
        · rw [← he]
          exact hx
        · exact h3' j hlt hj2
      · rw [findFree, if_pos hx]
        exact h4'
    · have hxf : ex (candidate st k0) = false := by
        cases hb : ex (candidate st k0)
        · rfl
        · exact absurd hb hx
      exact ⟨k0, Nat.le_refl _, hxf, by omega, by rw [findFree, if_neg hx]⟩

theorem lookup_isSome_mem {l : List (String × String)} {k : String}
    (h : (l.lookup k).isSome = true) : k ∈ l.map Prod.fst := by
  induction l with
  | nil => simp [List.lookup] at h
  | cons e es ih =>
    rcases e with ⟨a, b⟩
    rw [List.lookup] at h
    cases hb : k == a with
    | true =>
      simp only [List.map_cons]
      exact (eq_of_beq hb) ▸ List.mem_cons_self _ _
    | false =>
      rw [hb] at h
      exact List.mem_cons_of_mem _ (ih h)

theorem exists_free (fs : FS) (st : Stamp) :
    ∃ k, k < fs.files.length + 1 ∧ fs.existsFile (candidate st k) = false := by
  by_contra hcon
  push_neg at hcon
  have hall : ∀ k < fs.files.length + 1, candidate st k ∈ fs.files.map Prod.fst := by
    intro k hk
    apply lookup_isSome_mem
    have := hcon k hk
    rw [FS.existsFile] at this
    cases hb : (fs.files.lookup (candidate st k)).isSome
    · exact absurd hb this
    · rfl
  have hsub : (List.range (fs.files.length + 1)).map (candidate st) ⊆ fs.files.map Prod.fst := by
    intro x hx
    rcases List.mem_map.mp hx with ⟨k, hk, he⟩
    exact he ▸ hall k (List.mem_range.mp hk)
  have hnd : ((List.range (fs.files.length + 1)).map (candidate st)).Nodup :=
    List.Nodup.map (fun a b h => candidate_inj st h) (List.nodup_range _)
  have hlen := (hnd.subperm hsub).length_le
  simp [List.length_map, List.length_range] at hlen

theorem lookup_cons_self {l : List (String × String)} {k v : String} :
    ((k, v) :: l).lookup k = some v := by
  rw [List.lookup]
  rw [beq_self_eq_true]

theorem lookup_cons_ne {l : List (String × String)} {k a v : String} (h : k ≠ a) :
    ((a, v) :: l).lookup k = l.lookup k := by
  rw [List.lookup]
  have hb : (k == a) = false := beq_eq_false_iff_ne.mpr h
  rw [hb]

theorem candidate_head (st : Stamp) (k : Nat) : (candidate st k).data.head? = some 'p' := by
  cases k <;> simp [candidate, postsDir, String.data_append]

theorem jekyll_head (d t : String) : (jekyllPath d t).data.head? = some '_' := by
  simp [jekyllPath, String.data_append]

theorem candidate_ne_jekyll (st : Stamp) (k : Nat) (d t : String) :
    candidate st k ≠ jekyllPath d t := by
  intro h
  have h1 := candidate_head st k
  rw [h, jekyll_head] at h1
  exact absurd (Option.some.inj h1) (by decide)

theorem publishStep_skip (fs : FS) (copyOk : Bool) (content archivePath : String)
    (h : extract_date content = none ∨ extract_title content = none) :
    publishStep fs copyOk content archivePath = .ok (fs, none) := by
  rcases h with h | h
  · cases ht : extract_title content <;> simp [publishStep, h, ht]
  · cases hd : extract_date content <;> simp [publishStep, h, hd]

theorem publishStep_go (fs : FS) (content archivePath : String) {d t : String}
    (hd : extract_date content = some d) (ht : extract_title content = some t)
    (hsrc : fs.files.lookup archivePath = some content) :
    ∃ fsm, FS.mkdir1 fs "_posts" true = .ok fsm ∧ fsm.files = fs.files ∧
      publishStep fs true content archivePath =
        .ok (fsm.write (jekyllPath d t) content, some (jekyllPath d t)) := by
  obtain ⟨fsm, hok, hfiles, _, _⟩ := mkdir1_true_ok fs "_posts"
  refine ⟨fsm, hok, hfiles, ?_⟩
  have hcopy : fsm.copy archivePath (jekyllPath d t) = .ok (fsm.write (jekyllPath d t) content) := by
    rw [FS.copy, hfiles, hsrc]
  simp [publishStep, hd, ht, hok, hcopy]

theorem publishStep_copyFail (fs : FS) (content archivePath : String) {d t : String}
    (hd : extract_date content = some d) (ht : extract_title content = some t) :
    ∃ fsm, fsm.files = fs.files ∧
      publishStep fs false content archivePath = .error (fsm, "copy failed") := by
  obtain ⟨fsm, hok, hfiles, _, _⟩ := mkdir1_true_ok fs "_posts"
  refine ⟨fsm, hfiles, ?_⟩
  simp [publishStep, hd, ht, hok]

theorem save_run (st : Stamp) (copyOk : Bool) (fs : FS) (content : String) :
    ∃ (k : Nat) (fsOut : FS) (pub : Option String),
      save_blog_post st copyOk fs content = some (fsOut, candidate st k, pub) ∧
      fs.existsFile (candidate st k) = false ∧
      (∀ j < k, fs.existsFile (candidate st j) = true) ∧
      ((pub = none ∧ fsOut.files = (candidate st k, content) :: fs.files ∧
          (extract_date content = none ∨ extract_title content = none ∨ copyOk = false)) ∨
        (∃ d t, extract_date content = some d ∧ extract_title content = some t ∧
          copyOk = true ∧ pub = some (jekyllPath d t) ∧
          fsOut.files = (jekyllPath d t, content) :: (candidate st k, content) :: fs.files)) := by
  obtain ⟨fs1, hmk, hfiles, hmono, hall⟩ := mkdirParents_spec (postsDirChain st) fs
  obtain ⟨k0, hk0len, hk0free⟩ := exists_free fs1 st
  obtain ⟨k, hk1, hkfree, hkocc, hkfind⟩ := findFree_spec fs1.existsFile st
    (fs1.files.length + 1) 0 ⟨k0, Nat.zero_le _, by omega, hk0free⟩
  have hexeq : ∀ p, fs1.existsFile p = fs.existsFile p := existsFile_congr hfiles
  have hw2 : (fs1.write (candidate st k) content).files =
      (candidate st k, content) :: fs.files := by
    rw [FS.write, hfiles]
  have hsrc : (fs1.write (candidate st k) content).files.lookup (candidate st k) =
      some content := by
    rw [FS.write]
    exact lookup_cons_self
  have hfree : fs.existsFile (candidate st k) = false := by rw [← hexeq]; exact hkfree
  have hocc : ∀ j < k, fs.existsFile (candidate st j) = true := by
    intro j hj
    rw [← hexeq]
    exact hkocc j (Nat.zero_le _) hj
  cases hd : extract_date content with
  | none =>
    have hpub := publishStep_skip (fs1.write (candidate st k) content) copyOk content
      (candidate st k) (Or.inl hd)
    refine ⟨k, fs1.write (candidate st k) content, none, ?_, hfree, hocc, ?_⟩
    · simp only [save_blog_post, hmk, hkfind, hpub]
    · exact Or.inl ⟨rfl, hw2, Or.inl rfl⟩
  | some d =>
    cases ht : extract_title content with
    | none =>
      have hpub := publishStep_skip (fs1.write (candidate st k) content) copyOk content
        (candidate st k) (Or.inr ht)
      refine ⟨k, fs1.write (candidate st k) content, none, ?_, hfree, hocc, ?_⟩
      · simp only [save_blog_post, hmk, hkfind, hpub]
      · exact Or.inl ⟨rfl, hw2, Or.inr (Or.inl rfl)⟩
    | some t =>
      cases copyOk with
      | true =>
        obtain ⟨fsm, hok, hfm, hpub⟩ := publishStep_go (fs1.write (candidate st k) content)
          content (candidate st k) hd ht hsrc
        refine ⟨k, fsm.write (jekyllPath d t) content, some (jekyllPath d t), ?_, hfree, hocc, ?_⟩
        · simp only [save_blog_post, hmk, hkfind, hpub]
        · refine Or.inr ⟨d, t, rfl, rfl, rfl, rfl, ?_⟩
          rw [FS.write, hfm, hw2]
      | false =>
        obtain ⟨fsm, hfm, hpub⟩ := publishStep_copyFail (fs1.write (candidate st k) content)
          content (candidate st k) hd ht
        refine ⟨k, fsm, none, ?_, hfree, hocc, ?_⟩
        · simp only [save_blog_post, hmk, hkfind, hpub]
        · refine Or.inl ⟨rfl, ?_, Or.inr (Or.inr rfl)⟩
          rw [hfm, hw2]

theorem takeWhile_ws_front (p : Char → Bool) (ws rest : List Char)
    (hws : ∀ c ∈ ws, p c = true)
    (hrest : ∀ c, rest.head? = some c → p c = false) :
    (ws ++ rest).takeWhile p = ws := by
  induction ws with
  | nil =>
    cases rest with
    | nil => rfl
    | cons c r =>
      simp [List.takeWhile_cons, hrest c rfl]
  | cons w ws ih =>
    simp only [List.cons_append, List.takeWhile_cons, hws w (List.mem_cons_self _ _),
      if_true]
    rw [ih (fun c hc => hws c (List.mem_cons_of_mem _ hc))]

theorem dropWhile_ws_front (p : Char → Bool) (ws rest : List Char)
    (hws : ∀ c ∈ ws, p c = true)
    (hrest : ∀ c, rest.head? = some c → p c = false) :
    (ws ++ rest).dropWhile p = rest := by
  induction ws with
  | nil =>
    cases rest with
    | nil => rfl
    | cons c r =>
      simp [List.dropWhile_cons, hrest c rfl]
  | cons w ws ih =>
    simp only [List.cons_append, List.dropWhile_cons, hws w (List.mem_cons_self _ _),
      if_true]
    exact ih (fun c hc => hws c (List.mem_cons_of_mem _ hc))

theorem isWs_false_of_isDigit {c : Char} (h : c.isDigit = true) : isWs c = false := by
  cases hb : isWs c
  · rfl
  · exfalso
    simp only [isWs, Bool.or_eq_true, beq_iff_eq] at hb
    rcases hb with ((((h2 | h2) | h2) | h2) | h2) | h2 <;> subst h2 <;>
      exact absurd h (by decide)

theorem isWs_false_of_isQuote {c : Char} (h : isQuote c = true) : isWs c = false := by
  rcases Bool.or_eq_true_iff.mp h with h1 | h1 <;> rw [eq_of_beq h1] <;> rfl

/-- Strip one leading quote character if present. -/
def dropLeadQuote : List Char → List Char
  | [] => []
  | c :: cs => if isQuote c then cs else c :: cs

/-- Strip one trailing quote character if present. -/
def dropTrailQuote (l : List Char) : List Char :=
  (dropLeadQuote l.reverse).reverse

theorem dropTrailQuote_cons {c : Char} {cs : List Char} (h : cs ≠ []) :
    dropTrailQuote (c :: cs) = c :: dropTrailQuote cs := by
  rw [dropTrailQuote, dropTrailQuote, List.reverse_cons]
  cases hr : cs.reverse with
  | nil => exact absurd (by simpa using hr) h
  | cons x xs =>
    rw [dropLeadQuote]
    by_cases hx : isQuote x
    · rw [List.cons_append, dropLeadQuote, if_pos hx, if_pos hx]
      rw [List.reverse_append]
      simp
    · rw [List.cons_append, dropLeadQuote, if_neg hx, if_neg hx]
      rw [← List.cons_append, List.reverse_append]
      simp

theorem all_isWs_append {cs ws2 : List Char} {x : Char}
    (hx : cs.getLast? = some x) (hxw : isWs x = false) :
    (cs ++ ws2).all isWs = false := by
  cases hb : (cs ++ ws2).all isWs
  · rfl
  · exfalso
    rw [List.all_eq_true] at hb
    have := hb x (List.mem_append_left _ (List.mem_of_getLast?_eq_some hx))
    rw [hxw] at this
    exact Bool.noConfusion this

theorem takeWhile_append_of_all {p : Char → Bool} {a b : List Char}
    (h : ∀ c ∈ a, p c = true) : (a ++ b).takeWhile p = a ++ b.takeWhile p := by
  induction a with
  | nil => rfl
  | cons x xs ih =>
    simp only [List.cons_append, List.takeWhile_cons, h x (List.mem_cons_self _ _), if_true]
    rw [ih (fun c hc => h c (List.mem_cons_of_mem _ hc))]

theorem lineAllWs_append_false {cs rest : List Char} {x : Char}
    (hnl : ∀ c ∈ cs, (c == '\n') = false) (hx : cs.getLast? = some x)
    (hxw : isWs x = false) : lineAllWs (cs ++ rest) = false := by
  rw [lineAllWs, takeWhile_append_of_all (fun c hc => by rw [hnl c hc]; rfl)]
  exact all_isWs_append hx hxw

theorem lineAllWs_cons_false {c : Char} {u : List Char}
    (hnl : (c == '\n') = false) (hw : isWs c = false) :
    lineAllWs (c :: u) = false := by
  simp [lineAllWs, List.takeWhile_cons, hnl, hw]

theorem tailOk_of_lineAllWs {rest : List Char} (h : lineAllWs rest = true) :
    tailOk rest = true := by
  cases rest with
  | nil => rfl
  | cons c r =>
    rw [tailOk, h]
    rfl

theorem tailOk_false_of_inner {cs rest : List Char} {x : Char}
    (hnl : ∀ c ∈ cs, (c == '\n') = false)
    (hx : cs.getLast? = some x) (hxw : isWs x = false) (hlen : 2 ≤ cs.length) :
    tailOk (cs ++ rest) = false := by
  cases cs with
  | nil => simp at hx
  | cons a as =>
    have has : as ≠ [] := by
      intro he
      subst he
      simp at hlen
    have hx' : as.getLast? = some x := by
      cases as with
      | nil => exact absurd rfl has
      | cons b bs => rw [← hx, List.getLast?_cons_cons]
    have hall : lineAllWs ((a :: as) ++ rest) = false := lineAllWs_append_false hnl hx hxw
    have hall2 : lineAllWs (as ++ rest) = false :=
      lineAllWs_append_false (fun c hc => hnl c (List.mem_cons_of_mem _ hc)) hx' hxw
    rw [List.cons_append, tailOk, ← List.cons_append, hall, hall2]
    simp

theorem contentSearch_value :
    ∀ (core rest : List Char), core ≠ [] →
      lineAllWs rest = true →
      (∀ c ∈ core, (c == '\n') = false) →
      (∀ x, core.getLast? = some x → isWs x = false) →
      (2 ≤ core.length ∨ (∀ c, core.head? = some c → isQuote c = false)) →
      contentSearch (core ++ rest) = some (dropTrailQuote core) := by
  intro core
  induction core with
  | nil => intro rest hne; exact absurd rfl hne
  | cons c cs ih =>
    intro rest _ hrest hnl hlast hsize
    have hcnl : c ≠ '\n' := by
      intro he
      have hcc := hnl c (List.mem_cons_self _ _)
      rw [he] at hcc
      simp at hcc
    have htrest : tailOk rest = true := tailOk_of_lineAllWs hrest
    cases cs with
    | nil =>
      have hcq : isQuote c = false := by
        rcases hsize with h | h
        · simp at h
        · exact h c rfl
      rw [List.cons_append, List.nil_append, contentSearch, if_neg hcnl, if_pos htrest]
      rw [dropTrailQuote, List.reverse_cons]
      simp [dropLeadQuote, hcq]
    | cons c2 cs2 =>
      have hlast2 : ∀ x, (c2 :: cs2).getLast? = some x → isWs x = false := by
        intro x hx
        exact hlast x (by rw [← hx, List.getLast?_cons_cons])
      have hnl2 : ∀ x ∈ (c2 :: cs2), (x == '\n') = false :=
        fun x hx => hnl x (List.mem_cons_of_mem _ hx)
      have hc2nl : (c2 == '\n') = false := hnl2 c2 (List.mem_cons_self _ _)
      have hc2ne : c2 ≠ '\n' := by
        intro he
        rw [he] at hc2nl
        simp at hc2nl
      cases cs2 with
      | nil =>
        have hlastc2 : isWs c2 = false := hlast2 c2 rfl
        by_cases hq2 : isQuote c2
        · have htl : tailOk ([c2] ++ rest) = true := by
            rw [List.cons_append, List.nil_append, tailOk]
            simp [hq2, hrest]
          rw [List.cons_append, contentSearch, if_neg hcnl, if_pos htl]
          rw [dropTrailQuote]
          simp [dropLeadQuote, hq2]
        · have hq2f : isQuote c2 = false := by
            cases hb : isQuote c2
            · rfl
            · exact absurd hb hq2
          have htl : tailOk ([c2] ++ rest) = false := by
            rw [List.cons_append, List.nil_append, tailOk]
            rw [lineAllWs_cons_false hc2nl hlastc2, hq2f]
            rfl
          rw [List.cons_append, contentSearch, if_neg hcnl,
            if_neg (by rw [htl]; exact Bool.noConfusion)]
          rw [List.cons_append, List.nil_append, contentSearch, if_neg hc2ne, if_pos htrest]
          rw [Option.map_some']
          rw [dropTrailQuote]
          simp [dropLeadQuote, hq2f]
      | cons c3 cs3 =>
        have hne3 : (c2 :: c3 :: cs3) ≠ [] := by simp
        have hlen3 : 2 ≤ (c2 :: c3 :: cs3).length := by simp
        obtain ⟨x, hgl⟩ : ∃ x, (c2 :: c3 :: cs3).getLast? = some x := by
          cases hb : (c2 :: c3 :: cs3).getLast? with
          | none => exact absurd (List.getLast?_eq_none_iff.mp hb) hne3
          | some y => exact ⟨y, rfl⟩
        have htl : tailOk ((c2 :: c3 :: cs3) ++ rest) = false :=
          tailOk_false_of_inner hnl2 hgl (hlast2 x hgl) hlen3
        have hrec := ih rest hne3 hrest hnl2 hlast2 (Or.inl hlen3)
        rw [List.cons_append, contentSearch, if_neg hcnl,
          if_neg (by rw [htl]; exact Bool.noConfusion)]
        rw [hrec, Option.map_some']
        rw [dropTrailQuote_cons (by simp : (c2 :: c3 :: cs3) ≠ [])]

theorem quoteStep_value (core rest : List Char)
    (hne : core ≠ []) (hrest : lineAllWs rest = true)
    (hnl : ∀ c ∈ core, (c == '\n') = false)
    (hlast : ∀ x, core.getLast? = some x → isWs x = false)
    (hq : ∀ c, core.head? = some c → isQuote c = true → 3 ≤ core.length) :
    quoteStep (core ++ rest) = some (dropTrailQuote (dropLeadQuote core)) := by
  cases core with
  | nil => exact absurd rfl hne
  | cons c cs =>
    rw [List.cons_append, quoteStep]
    by_cases hc : isQuote c
    · have hlen3 := hq c rfl hc
      have hcs_ne : cs ≠ [] := by
        intro h
        subst h
        simp at hlen3
      have hcs_len : 2 ≤ cs.length := by
        simp only [List.length_cons] at hlen3
        omega
      have hlast2 : ∀ x, cs.getLast? = some x → isWs x = false := by
        intro x hx
        cases hcase : cs with
        | nil => exact absurd hcase hcs_ne
        | cons b bs =>
          apply hlast
          rw [hcase, List.getLast?_cons_cons]
          rw [hcase] at hx
          exact hx
      have hcs := contentSearch_value cs rest hcs_ne hrest
        (fun x hx => hnl x (List.mem_cons_of_mem _ hx)) hlast2 (Or.inl hcs_len)
      rw [if_pos hc, hcs]
      rw [dropLeadQuote, if_pos hc]
    · rw [if_neg hc]
      have hcf : isQuote c = false := by
        cases hb : isQuote c
        · rfl
        · exact absurd hb hc
      have hsz : 2 ≤ (c :: cs).length ∨
          (∀ x, (c :: cs).head? = some x → isQuote x = false) := by
        refine Or.inr ?_
        intro x hx
        rw [Option.some.inj hx] at hcf
        exact hcf
      have hfull := contentSearch_value (c :: cs) rest (by simp) hrest hnl hlast hsz
      rw [← List.cons_append, hfull]
      rw [dropLeadQuote, if_neg hc]

theorem titleAt_value (ws core rest : List Char)
    (hws : ∀ c ∈ ws, isWs c = true)
    (hne : core ≠ [])
    (hnl : ∀ c ∈ core, (c == '\n') = false)
    (hhead : ∀ c, core.head? = some c → isWs c = false)
    (hlast : ∀ x, core.getLast? = some x → isWs x = false)
    (hq : ∀ c, core.head? = some c → isQuote c = true → 3 ≤ core.length)
    (hrest : lineAllWs rest = true) :
    titleAt ("title:".toList ++ (ws ++ (core ++ rest))) =
      some (dropTrailQuote (dropLeadQuote core)) := by
  have hheadr : ∀ c, (core ++ rest).head? = some c → isWs c = false := by
    intro c hc
    cases core with
    | nil => exact absurd rfl hne
    | cons a as =>
      rw [List.cons_append, List.head?_cons] at hc
      exact hhead c (by rw [List.head?_cons, hc])
  rw [titleAt, List.take_left' (by rfl), if_pos rfl, List.drop_left' (by rfl)]
  rw [takeWhile_ws_front isWs ws (core ++ rest) hws hheadr]
  have hquote := quoteStep_value core rest hne hrest hnl hlast hq
  cases hl : ws.length with
  | zero =>
    have hwsnil : ws = [] := List.length_eq_zero.mp hl
    subst hwsnil
    rw [wsBacktrack, List.nil_append, hquote]
  | succ k =>
    rw [wsBacktrack, List.drop_left' hl, hquote]

theorem findSome?_split {α β : Type} (f : α → Option β) :
    ∀ (l : List α) (b : β), l.findSome? f = some b ↔
      ∃ pre x post, l = pre ++ x :: post ∧ (∀ y ∈ pre, f y = none) ∧ f x = some b := by
  intro l
  induction l with
  | nil =>
    intro b
    constructor
    · intro h
      simp at h
    · rintro ⟨pre, x, post, h, _, _⟩
      exact absurd h (by simp)
  | cons a l ih =>
    intro b
    rw [List.findSome?_cons]
    cases hfa : f a with
    | some v =>
      constructor
      · intro h
        exact ⟨[], a, l, rfl, by simp, by rw [hfa, Option.some.inj h]⟩
      · rintro ⟨pre, x, post, hsplit, hpre, hx⟩
        cases pre with
        | nil =>
          simp only [List.nil_append, List.cons.injEq] at hsplit
          rw [hsplit.1] at hfa
          rw [hfa] at hx
          exact hx.symm ▸ rfl
        | cons p ps =>
          simp only [List.cons_append, List.cons.injEq] at hsplit
          have := hpre p (List.mem_cons_self _ _)
          rw [← hsplit.1] at this
          rw [this] at hfa
          exact Option.noConfusion hfa
    | none =>
      constructor
      · intro h
        obtain ⟨pre, x, post, h1, h2, h3⟩ := (ih b).mp h
        refine ⟨a :: pre, x, post, by rw [h1, List.cons_append], ?_, h3⟩
        intro y hy
        rcases List.mem_cons.mp hy with he | hm
        · rw [he]
          exact hfa
        · exact h2 y hm
      · rintro ⟨pre, x, post, hsplit, hpre, hx⟩
        cases pre with
        | nil =>
          simp only [List.nil_append, List.cons.injEq] at hsplit
          rw [hsplit.1] at hfa
          rw [hfa] at hx
          exact Option.noConfusion hx
        | cons p ps =>
          simp only [List.cons_append, List.cons.injEq] at hsplit
          exact (ih b).mpr ⟨ps, x, post, hsplit.2, fun y hy => hpre y (List.mem_cons_of_mem _ hy), hx⟩

/-- Shape of the captured date group: four digits, a hyphen, two digits,
a hyphen, two digits. -/
def DateShape (ds : List Char) : Prop :=
  ∃ y1 y2 y3 y4 m1 m2 d1 d2,
    ds = [y1, y2, y3, y4, '-', m1, m2, '-', d1, d2] ∧
    y1.isDigit = true ∧ y2.isDigit = true ∧ y3.isDigit = true ∧ y4.isDigit = true ∧
    m1.isDigit = true ∧ m2.isDigit = true ∧ d1.isDigit = true ∧ d2.isDigit = true

theorem dateAt_value (ws ds rest : List Char)
    (hws : ∀ c ∈ ws, isWs c = true) (hshape : DateShape ds) :
    dateAt ("date:".toList ++ (ws ++ (ds ++ rest))) = some ds := by
  obtain ⟨y1, y2, y3, y4, m1, m2, d1, d2, hds, h1, h2, h3, h4, h5, h6, h7, h8⟩ := hshape
  subst hds
  rw [dateAt, List.take_left' (by rfl), if_pos rfl, List.drop_left' (by rfl)]
  rw [dropWhile_ws_front isWs ws _ hws ?hrest]
  case hrest =>
    intro c hc
    simp only [List.cons_append, List.head?_cons, Option.some.injEq] at hc
    rw [← hc]
    exact isWs_false_of_isDigit h1
  simp [h1, h2, h3, h4, h5, h6, h7, h8]

theorem read_head {fsOut : FS} {p c : String} {rest : List (String × String)}
    (h : fsOut.files = (p, c) :: rest) : fsOut.read p = some c := by
  rw [FS.read, h]
  exact lookup_cons_self

theorem read_second {fsOut : FS} {p c q c2 : String} {rest : List (String × String)}
    (hne : p ≠ q) (h : fsOut.files = (q, c2) :: (p, c) :: rest) :
    fsOut.read p = some c := by
  rw [FS.read, h, lookup_cons_ne hne]
  exact lookup_cons_self

theorem existsFile_head {fs : FS} {p c : String} {rest : List (String × String)}
    (h : fs.files = (p, c) :: rest) : fs.existsFile p = true := by
  rw [FS.existsFile, h, lookup_cons_self]
  rfl

theorem existsFile_second {fs : FS} {p c q c2 : String} {rest : List (String × String)}
    (hne : p ≠ q) (h : fs.files = (q, c2) :: (p, c) :: rest) :
    fs.existsFile p = true := by
  rw [FS.existsFile, h, lookup_cons_ne hne, lookup_cons_self]
  rfl

theorem case_facts {st : Stamp} {k : Nat} {content : String} {fs fsOut : FS}
    {pub : Option String} {copyOk : Bool}
    (hcase : (pub = none ∧ fsOut.files = (candidate st k, content) :: fs.files ∧
        (extract_date content = none ∨ extract_title content = none ∨ copyOk = false)) ∨
      (∃ d t, extract_date content = some d ∧ extract_title content = some t ∧
        copyOk = true ∧ pub = some (jekyllPath d t) ∧
        fsOut.files = (jekyllPath d t, content) :: (candidate st k, content) :: fs.files)) :
    fsOut.read (candidate st k) = some content ∧
    fsOut.existsFile (candidate st k) = true ∧
    (∀ p, p ≠ candidate st k → (∀ d t, p ≠ jekyllPath d t) → fsOut.read p = fs.read p) := by
  rcases hcase with ⟨_, hf, _⟩ | ⟨d, t, _, _, _, _, hf⟩
  · refine ⟨read_head hf, existsFile_head hf, ?_⟩
    intro p hp _
    rw [FS.read, hf, lookup_cons_ne hp]
    rfl
  · have hne := candidate_ne_jekyll st k d t
    refine ⟨read_second hne hf, existsFile_second hne hf, ?_⟩
    intro p hp hpj
    rw [FS.read, hf, lookup_cons_ne (hpj d t), lookup_cons_ne hp]
    rfl

/-- C1: for every filesystem state and every wall-clock stamp, the
archive path chosen by save_blog_post is the first candidate in the
sequence auto-HHMMSS.md, auto-HHMMSS-1.md, auto-HHMMSS-2.md, ... that
does not already exist: the collision loop terminates at the first
available slot, never skips an available lower-numbered slot, and never
overwrites an existing file. -/
theorem C1_archive_path_first_free (st : Stamp) (copyOk : Bool) (fs : FS) (content : String) :
    ∃ (k : Nat) (fsOut : FS) (pub : Option String),
      save_blog_post st copyOk fs content = some (fsOut, candidate st k, pub) ∧
      fs.existsFile (candidate st k) = false ∧
      ∀ j < k, fs.existsFile (candidate st j) = true := by
  obtain ⟨k, fsOut, pub, h1, h2, h3, _⟩ := save_run st copyOk fs content
  exact ⟨k, fsOut, pub, h1, h2, h3⟩

theorem C1_archive_path_first_free_witness :
    ∃ (k : Nat) (fsOut : FS) (pub : Option String),
      save_blog_post ⟨"2024", "03", "05", "120000"⟩ true
          ⟨[("posts/2024/03/05/auto-120000.md", "old")], []⟩ "body" =
        some (fsOut, candidate ⟨"2024", "03", "05", "120000"⟩ k, pub) ∧
      FS.existsFile ⟨[("posts/2024/03/05/auto-120000.md", "old")], []⟩
        (candidate ⟨"2024", "03", "05", "120000"⟩ k) = false ∧
      ∀ j < k, FS.existsFile ⟨[("posts/2024/03/05/auto-120000.md", "old")], []⟩
        (candidate ⟨"2024", "03", "05", "120000"⟩ j) = true :=
  C1_archive_path_first_free ⟨"2024", "03", "05", "120000"⟩ true
    ⟨[("posts/2024/03/05/auto-120000.md", "old")], []⟩ "body"

/-- C2: any failure of the publication sub-step is caught inside
save_blog_post and never escalates: the run still succeeds and returns
the archive path; when no date line is present an ArchiveEntry is
written but no PublishedEntry; a failing copy likewise leaves only the
ArchiveEntry, which still holds the content. -/
theorem C2_publish_failure_confined (st : Stamp) (copyOk : Bool) (fs : FS) (content : String) :
    (∃ k fsOut pub, save_blog_post st copyOk fs content = some (fsOut, candidate st k, pub)) ∧
    (extract_date content = none →
      ∃ k fsOut, save_blog_post st copyOk fs content = some (fsOut, candidate st k, none) ∧
        fsOut.read (candidate st k) = some content) ∧
    (copyOk = false →
      ∃ k fsOut, save_blog_post st copyOk fs content = some (fsOut, candidate st k, none) ∧
        fsOut.read (candidate st k) = some content) := by
  obtain ⟨k, fsOut, pub, h1, _, _, hcase⟩ := save_run st copyOk fs content
  refine ⟨⟨k, fsOut, pub, h1⟩, ?_, ?_⟩
  · intro hd
    rcases hcase with ⟨hp, hf, _⟩ | ⟨d, t, hdd, _, _, _, _⟩
    · rw [hp] at h1
      exact ⟨k, fsOut, h1, read_head hf⟩
    · rw [hd] at hdd
      exact Option.noConfusion hdd
  · intro hck
    rcases hcase with ⟨hp, hf, _⟩ | ⟨d, t, _, _, hcopy, _, _⟩
    · rw [hp] at h1
      exact ⟨k, fsOut, h1, read_head hf⟩
    · rw [hck] at hcopy
      exact Bool.noConfusion hcopy

theorem C2_publish_failure_confined_witness :
    ∃ k fsOut,
      save_blog_post ⟨"2024", "03", "05", "120000"⟩ false ⟨[], []⟩ "plain body" =
        some (fsOut, candidate ⟨"2024", "03", "05", "120000"⟩ k, none) ∧
      FS.read fsOut (candidate ⟨"2024", "03", "05", "120000"⟩ k) = some "plain body" :=
  (C2_publish_failure_confined ⟨"2024", "03", "05", "120000"⟩ false ⟨[], []⟩
    "plain body").2.1 (by decide)

/-- C3: for every title string the slug derivation of save_blog_post
equals the five-step reference definition of the specification; the
concrete example maps to kubernetes-networking-a-deep-dive, and a title
of only stripped characters yields the empty string. -/
theorem C3_slug_matches_reference :
    (∀ s : String, slug s = slug_spec s) ∧
      slug "Kubernetes Networking: A Deep Dive!" = "kubernetes-networking-a-deep-dive" ∧
      slug "!!!" = "" :=
  ⟨slug_eq_spec_all, by decide, by decide⟩

/-- C4 counterexample: two failures of the claim on the code.  First,
an unmatched leading quote is stripped: for the line title: "Hello (no
closing quote) the code extracts Hello, not the unstripped "Hello the
matching-pair reading requires.  Second, the value is not taken from
the first line of the form title: <value>: on a content whose first
title: line is bare, \s* bridges the newline and the code captures B
from the following line, while the per-line reading of the claim
(titleAt applied to the lines) yields Real. -/
theorem C4_matching_pair_counterexample :
    (extract_title "title: \"Hello" = some "Hello" ∧
      extract_title "title: \"Hello" ≠ some "\"Hello") ∧
    (extract_title "title:\nB\ntitle: Real" = some "B" ∧
      (linesOf "title:\nB\ntitle: Real").findSome? titleAt = some "Real".toList) := by
  refine ⟨⟨?_, ?_⟩, ?_, ?_⟩ <;> decide

/-- C4 amended: title extraction returns the captured value of the
leftmost match of the title pattern: at the first line start followed by
title:, optional whitespace that may span line breaks, and a value lying
on a single line; surrounding whitespace is trimmed and at most one
leading and at most one trailing quote character are stripped
independently (they need not form a matching pair); stated for values
that are nonempty after trimming and, when they begin with a quote
character, have at least three characters; for the header line
title: "Intro to CI/CD" the extracted title is exactly Intro to CI/CD,
and on title:\nHello the value is captured from the following line. -/
theorem C4_title_extraction_amended :
    (∀ ws core rest : List Char,
      (∀ c ∈ ws, isWs c = true) →
      core ≠ [] →
      (∀ c ∈ core, (c == '\n') = false) →
      (∀ c, core.head? = some c → isWs c = false) →
      (∀ x, core.getLast? = some x → isWs x = false) →
      (∀ c, core.head? = some c → isQuote c = true → 3 ≤ core.length) →
      lineAllWs rest = true →
      titleAt ("title:".toList ++ (ws ++ (core ++ rest))) =
        some (dropTrailQuote (dropLeadQuote core))) ∧
    (∀ (content : String) (t : List Char),
      (lineTails content.toList).findSome? titleAt = some t ↔
        ∃ pre x post, lineTails content.toList = pre ++ x :: post ∧
          (∀ y ∈ pre, titleAt y = none) ∧ titleAt x = some t) ∧
    extract_title "title: \"Intro to CI/CD\"\ndate: 2024-03-05 10:00:00 +0000" =
      some "Intro to CI/CD" ∧
    extract_title "title:\nHello" = some "Hello" :=
  ⟨titleAt_value,
    fun content t => findSome?_split titleAt (lineTails content.toList) t,
    by decide, by decide⟩

theorem C4_title_extraction_amended_witness :
    titleAt ("title:".toList ++ (['\n', ' '] ++ (['"', 'H', 'i'] ++ [' ', '\n', 'x']))) =
      some (dropTrailQuote (dropLeadQuote ['"', 'H', 'i'])) :=
  C4_title_extraction_amended.1 ['\n', ' '] ['"', 'H', 'i'] [' ', '\n', 'x'] (by decide)
    (by decide) (by decide) (by decide) (by decide) (by decide) (by decide)

/-- C5 counterexample: date extraction is not line-local: in the
content date:\n2024-03-05 no single line has the form
date: <YYYY-MM-DD...> (the claim then requires the date token to be
absent), yet the code bridges the newline with \s* and returns
2024-03-05. -/
theorem C5_first_line_counterexample :
    extract_date "date:\n2024-03-05" = some "2024-03-05" ∧
      (∀ l ∈ linesOf "date:\n2024-03-05", dateAt l = none) := by
  constructor
  · decide
  · decide

/-- C5 amended: date extraction returns the YYYY-MM-DD group of the
leftmost match of the date pattern: the first line start followed by
date:, optional whitespace that may span line breaks, and a
four-two-two digit date; any trailing time or offset is discarded, no
calendar validation is performed (2023-13-45 passes through unchanged),
and when no line start matches, the token is absent rather than an
error. -/
theorem C5_date_extraction_amended :
    (∀ ws ds rest : List Char, (∀ c ∈ ws, isWs c = true) → DateShape ds →
      dateAt ("date:".toList ++ (ws ++ (ds ++ rest))) = some ds) ∧
    (∀ (content : String) (d : List Char),
      (lineTails content.toList).findSome? dateAt = some d ↔
        ∃ pre x post, lineTails content.toList = pre ++ x :: post ∧
          (∀ y ∈ pre, dateAt y = none) ∧ dateAt x = some d) ∧
    extract_date "date: 2023-13-45" = some "2023-13-45" ∧
    extract_date "date: abc\ndate:\n2023-01-01\ndate: 2022-02-02" = some "2023-01-01" ∧
    extract_date "title: only\nbody text" = none :=
  ⟨dateAt_value,
    fun content d => findSome?_split dateAt (lineTails content.toList) d,
    by decide, by decide, by decide⟩

theorem C5_date_extraction_amended_witness :
    dateAt ("date:".toList ++ (['\n', ' '] ++ ("2023-13-45".toList ++ " 10:00:00 +0000".toList))) =
      some "2023-13-45".toList :=
  C5_date_extraction_amended.1 ['\n', ' '] "2023-13-45".toList " 10:00:00 +0000".toList
    (by decide)
    ⟨'2', '0', '2', '3', '1', '3', '4', '5', by decide, by decide, by decide, by decide,
      by decide, by decide, by decide, by decide, by decide⟩

/-- C6: running the persister twice with the same stamp on content whose
date and title extract produces two distinct archive files but a single
deterministic publication path _posts/<date>-<slug>.md, which the second
run overwrites with no collision avoidance; after publication the
published content is byte-identical to the archive copy. -/
theorem C6_republish_overwrite (st : Stamp) (fs : FS) (content d t : String)
    (hd : extract_date content = some d) (ht : extract_title content = some t) :
    ∃ k1 k2 fs1 fs2,
      save_blog_post st true fs content =
        some (fs1, candidate st k1, some (jekyllPath d t)) ∧
      save_blog_post st true fs1 content =
        some (fs2, candidate st k2, some (jekyllPath d t)) ∧
      candidate st k1 ≠ candidate st k2 ∧
      fs2.read (jekyllPath d t) = some content ∧
      fs2.read (candidate st k2) = some content ∧
      fs2.read (jekyllPath d t) = fs2.read (candidate st k2) := by
  obtain ⟨k1, fsA, pub1, h1, hfree1, _, hcase1⟩ := save_run st true fs content
  rcases hcase1 with ⟨_, _, hreason⟩ | ⟨d1, t1, hd1, ht1, _, hp1, hf1⟩
  · exfalso
    rcases hreason with h | h | h
    · rw [hd] at h; exact Option.noConfusion h
    · rw [ht] at h; exact Option.noConfusion h
    · exact Bool.noConfusion h
  · have hdq : d1 = d := Option.some.inj (hd1.symm.trans hd)
    have htq : t1 = t := Option.some.inj (ht1.symm.trans ht)
    rw [hdq, htq] at hp1 hf1
    rw [hp1] at h1
    obtain ⟨k2, fsB, pub2, h2, hfree2, _, hcase2⟩ := save_run st true fsA content
    rcases hcase2 with ⟨_, _, hreason⟩ | ⟨d2, t2, hd2, ht2, _, hp2, hf2⟩
    · exfalso
      rcases hreason with h | h | h
      · rw [hd] at h; exact Option.noConfusion h
      · rw [ht] at h; exact Option.noConfusion h
      · exact Bool.noConfusion h
    · have hdq2 : d2 = d := Option.some.inj (hd2.symm.trans hd)
      have htq2 : t2 = t := Option.some.inj (ht2.symm.trans ht)
      rw [hdq2, htq2] at hp2 hf2
      rw [hp2] at h2
      have hne1 : candidate st k1 ≠ jekyllPath d t := candidate_ne_jekyll st k1 d t
      have hne2 : candidate st k2 ≠ jekyllPath d t := candidate_ne_jekyll st k2 d t
      have hex1 : fsA.existsFile (candidate st k1) = true := existsFile_second hne1 hf1
      have hneq : candidate st k1 ≠ candidate st k2 := by
        intro he
        rw [← he] at hfree2
        rw [hex1] at hfree2
        exact Bool.noConfusion hfree2
      have hrj : fsB.read (jekyllPath d t) = some content := read_head hf2
      have hrc : fsB.read (candidate st k2) = some content := read_second hne2 hf2
      exact ⟨k1, k2, fsA, fsB, h1, h2, hneq, hrj, hrc, hrj.trans hrc.symm⟩

theorem C6_republish_overwrite_witness :
    ∃ k1 k2 fs1 fs2,
      save_blog_post ⟨"2024", "03", "05", "120000"⟩ true ⟨[], []⟩
          "title: Hello\ndate: 2024-03-05" =
        some (fs1, candidate ⟨"2024", "03", "05", "120000"⟩ k1,
          some (jekyllPath "2024-03-05" "Hello")) ∧
      save_blog_post ⟨"2024", "03", "05", "120000"⟩ true fs1
          "title: Hello\ndate: 2024-03-05" =
        some (fs2, candidate ⟨"2024", "03", "05", "120000"⟩ k2,
          some (jekyllPath "2024-03-05" "Hello")) ∧
      candidate ⟨"2024", "03", "05", "120000"⟩ k1 ≠
        candidate ⟨"2024", "03", "05", "120000"⟩ k2 ∧
      FS.read fs2 (jekyllPath "2024-03-05" "Hello") = some "title: Hello\ndate: 2024-03-05" ∧
      FS.read fs2 (candidate ⟨"2024", "03", "05", "120000"⟩ k2) =
        some "title: Hello\ndate: 2024-03-05" ∧
      FS.read fs2 (jekyllPath "2024-03-05" "Hello") =
        FS.read fs2 (candidate ⟨"2024", "03", "05", "120000"⟩ k2) :=
  C6_republish_overwrite ⟨"2024", "03", "05", "120000"⟩ ⟨[], []⟩
    "title: Hello\ndate: 2024-03-05" "2024-03-05" "Hello" (by decide) (by decide)

/-- C7: the archive write is a verbatim round trip: for every content
string the written file reads back as the exact original, and persisting
twice within the same wall-clock second yields two distinct archive
paths, each of which still reads back the original content. -/
theorem C7_roundtrip_two_runs (st : Stamp) (copyOk : Bool) (fs : FS) (content : String) :
    ∃ k1 fs1 pub1 k2 fs2 pub2,
      save_blog_post st copyOk fs content = some (fs1, candidate st k1, pub1) ∧
      fs1.read (candidate st k1) = some content ∧
      save_blog_post st copyOk fs1 content = some (fs2, candidate st k2, pub2) ∧
      candidate st k1 ≠ candidate st k2 ∧
      fs2.read (candidate st k2) = some content ∧
      fs2.read (candidate st k1) = some content := by
  obtain ⟨k1, fs1, pub1, h1, hfree1, _, hcase1⟩ := save_run st copyOk fs content
  obtain ⟨hread1, hex1, _⟩ := case_facts hcase1
  obtain ⟨k2, fs2, pub2, h2, hfree2, _, hcase2⟩ := save_run st copyOk fs1 content
  obtain ⟨hread2, _, htrans2⟩ := case_facts hcase2
  have hneq : candidate st k1 ≠ candidate st k2 := by
    intro he
    rw [← he] at hfree2
    rw [hex1] at hfree2
    exact Bool.noConfusion hfree2
  have hr21 : fs2.read (candidate st k1) = some content := by
    rw [htrans2 (candidate st k1) hneq (fun d t => candidate_ne_jekyll st k1 d t)]
    exact hread1
  exact ⟨k1, fs1, pub1, k2, fs2, pub2, h1, hread1, h2, hneq, hread2, hr21⟩

theorem C7_roundtrip_two_runs_witness :
    ∃ k1 fs1 pub1 k2 fs2 pub2,
      save_blog_post ⟨"2024", "03", "05", "120000"⟩ true ⟨[], []⟩ "snowman body" =
        some (fs1, candidate ⟨"2024", "03", "05", "120000"⟩ k1, pub1) ∧
      FS.read fs1 (candidate ⟨"2024", "03", "05", "120000"⟩ k1) = some "snowman body" ∧
      save_blog_post ⟨"2024", "03", "05", "120000"⟩ true fs1 "snowman body" =
        some (fs2, candidate ⟨"2024", "03", "05", "120000"⟩ k2, pub2) ∧
      candidate ⟨"2024", "03", "05", "120000"⟩ k1 ≠
        candidate ⟨"2024", "03", "05", "120000"⟩ k2 ∧
      FS.read fs2 (candidate ⟨"2024", "03", "05", "120000"⟩ k2) = some "snowman body" ∧
      FS.read fs2 (candidate ⟨"2024", "03", "05", "120000"⟩ k1) = some "snowman body" :=
  C7_roundtrip_two_runs ⟨"2024", "03", "05", "120000"⟩ true ⟨[], []⟩ "snowman body"

/-- C8: slug derivation is idempotent on its own image: every string
that is the slug of some title is mapped to itself by the slug
derivation. -/
theorem C8_slug_idempotent_on_image (s t : String) (h : s = slug t) : slug s = s :=
  slug_idem s t h

theorem C8_slug_idempotent_on_image_witness : slug "ab-c" = "ab-c" :=
  C8_slug_idempotent_on_image "ab-c" "Ab C" (by decide)

/-- C9: directory creation in the persister is idempotent: the
parents-and-exist-ok creation of the date-partitioned chain creates all
missing intermediate directories, a second run on the resulting state is
the identity and raises no error, and the exist-ok creation of the flat
_posts directory never fails either. -/
theorem C9_mkdir_idempotent (st : Stamp) (fs : FS) :
    (∃ fs', FS.mkdirParents fs (postsDirChain st) = .ok fs' ∧
      (∀ d ∈ postsDirChain st, fs'.dirs.contains d = true) ∧
      FS.mkdirParents fs' (postsDirChain st) = .ok fs') ∧
    (∀ d : String, ∃ fsm, FS.mkdir1 fs d true = .ok fsm) := by
  constructor
  · obtain ⟨fs', hok, _, _, hall⟩ := mkdirParents_spec (postsDirChain st) fs
    exact ⟨fs', hok, hall, mkdirParents_id hall⟩
  · intro d
    obtain ⟨fsm, hok, _, _, _⟩ := mkdir1_true_ok fs d
    exact ⟨fsm, hok⟩

theorem C9_mkdir_idempotent_witness :
    (∃ fs', FS.mkdirParents ⟨[], ["posts", "posts/2024", "posts/2024/03", "posts/2024/03/05"]⟩
        (postsDirChain ⟨"2024", "03", "05", "120000"⟩) = .ok fs' ∧
      (∀ d ∈ postsDirChain ⟨"2024", "03", "05", "120000"⟩, fs'.dirs.contains d = true) ∧
      FS.mkdirParents fs' (postsDirChain ⟨"2024", "03", "05", "120000"⟩) = .ok fs') ∧
    (∀ d : String, ∃ fsm, FS.mkdir1
      ⟨[], ["posts", "posts/2024", "posts/2024/03", "posts/2024/03/05"]⟩ d true = .ok fsm) :=
  C9_mkdir_idempotent ⟨"2024", "03", "05", "120000"⟩
    ⟨[], ["posts", "posts/2024", "posts/2024/03", "posts/2024/03/05"]⟩

/-- C10: when a date and a title both extract but the title consists
only of stripped characters (empty slug), the persister still creates a
PublishedEntry at the degenerate path _posts/<date>-.md: no emptiness
check suppresses publication. -/
theorem C10_empty_slug_still_publishes (st : Stamp) (fs : FS) (content d t : String)
    (hd : extract_date content = some d) (ht : extract_title content = some t) :
    ∃ k fsOut,
      save_blog_post st true fs content =
        some (fsOut, candidate st k, some (jekyllPath d t)) ∧
      fsOut.read (jekyllPath d t) = some content := by
  obtain ⟨k, fsOut, pub, h1, _, _, hcase⟩ := save_run st true fs content
  rcases hcase with ⟨_, _, hreason⟩ | ⟨d1, t1, hd1, ht1, _, hp, hf⟩
  · exfalso
    rcases hreason with h | h | h
    · rw [hd] at h; exact Option.noConfusion h
    · rw [ht] at h; exact Option.noConfusion h
    · exact Bool.noConfusion h
  · have hdq : d1 = d := Option.some.inj (hd1.symm.trans hd)
    have htq : t1 = t := Option.some.inj (ht1.symm.trans ht)
    rw [hdq, htq] at hp hf
    rw [hp] at h1
    exact ⟨k, fsOut, h1, read_head hf⟩

theorem C10_empty_slug_still_publishes_witness :
    slug "!!!" = "" ∧
    ∃ k fsOut,
      save_blog_post ⟨"2024", "03", "05", "120000"⟩ true ⟨[], []⟩
          "title: !!!\ndate: 2024-03-05" =
        some (fsOut, candidate ⟨"2024", "03", "05", "120000"⟩ k, some "_posts/2024-03-05-.md") ∧
      FS.read fsOut "_posts/2024-03-05-.md" = some "title: !!!\ndate: 2024-03-05" := by
  constructor
  · decide
  · have h := C10_empty_slug_still_publishes ⟨"2024", "03", "05", "120000"⟩ ⟨[], []⟩
      "title: !!!\ndate: 2024-03-05" "2024-03-05" "!!!" (by decide) (by decide)
    have hj : jekyllPath "2024-03-05" "!!!" = "_posts/2024-03-05-.md" := by decide
    rw [hj] at h
    exact h

end Blog
